import Mathlib

/-!
Verification development for the `readableruntime` repository.

The repository has two computational layers:

* the branch-aware SDK mapper (`comprehensive_branch_aware_mapper.py`),
  whose algorithms (`_find_best_sdk_match`, `_build_pr_to_releases_mapping`,
  the backport index, `_get_master_prs_at_branch_point`) are documented in
  `docs/SDK_MAPPER_DECISION_LOGIC.md` and the comprehensive mapper
  documentation; the Python source itself is not part of the checked-in
  sources, so those components are modelled from the specification text
  and the pseudocode reproduced in the documentation;
* the website front end `docs/js/app.js`, whose search functions
  (`searchPRsByTitle`, `calculateRelevance`, `searchSDKPR`) are embedded
  directly from the JavaScript source.

Timestamps are modelled as natural numbers (chronological order is all the
algorithms use), JS strings as `List Char`, and PR numbers as naturals.
-/

namespace ReadableRuntime

/-! ## VersionMatcher (modelled from the spec, §4.5) -/

/-- Modelled from the spec: an SDK release tag as collected by TagRegistry
(§4.1): name, commit hash, timestamp, branch name and the snapshot of
tracked-dependency versions. -/
structure Tag where
  name : String
  commit : String
  date : Nat
  branch : String
  packageVersions : List (String × String)
deriving DecidableEq, Repr

/-- Modelled from the spec: the score of a candidate tag is the count of
tracked (dependency, version) pairs of the release that the tag shares
(§4.5 step 1). -/
def matchScore (t : Tag) (deps : List (String × String)) : Nat :=
  deps.countP (fun d => decide (d ∈ t.packageVersions))

/-- Modelled from the spec: 1 when the tag is a temporal predecessor of the
release (tag date ≤ release date), otherwise 0 (§4.5 step 2). -/
def predBit (rdate : Nat) (t : Tag) : Nat :=
  if t.date ≤ rdate then 1 else 0

/-- Modelled from the spec: for temporal predecessors the tie-break prefers
the closest predecessor, i.e. the greatest tag date; non-predecessors all
get key 0 so that only the name decides among them (§4.5 steps 2-3). -/
def predDate (rdate : Nat) (t : Tag) : Nat :=
  if t.date ≤ rdate then t.date else 0

/-- Modelled from the spec: the lexicographic selection key of
`_find_best_sdk_match`: match count first, then predecessor-ness, then
closeness to the release date among predecessors, finally the
lexicographically greatest tag name as last resort (§4.5). -/
def tagKey (deps : List (String × String)) (rdate : Nat) (t : Tag) :
    Nat ×ₗ Nat ×ₗ Nat ×ₗ String :=
  toLex (matchScore t deps, toLex (predBit rdate t, toLex (predDate rdate t, t.name)))

/-- Modelled from the spec: `_find_best_sdk_match` — restrict to tags that
share at least one tracked (dependency, version) pair with the release,
then select the candidate maximizing the tie-break key; returns no match
when no tag shares any tracked version (§4.5). -/
def findBestSdkMatch (tags : List Tag) (deps : List (String × String)) (rdate : Nat) :
    Option Tag :=
  (tags.filter (fun t => 0 < matchScore t deps)).argmax (tagKey deps rdate)

/-! ## AssignmentEngine (modelled from the spec, §4.4) -/

/-- Modelled from the spec: a merged SDK pull request as cached by the
mapper: number, merge timestamp, backport flag and optional original PR
reference (§3 PullRequest). -/
structure PRrec where
  number : Nat
  mergedAt : Nat
  isBackport : Bool
  originalPr : Option Nat
deriving DecidableEq, Repr

/-- Modelled from the spec: a runtime release as seen by the assignment
engine: its version, the date of its matched SDK tag, and the attributable
PR set of the matched tag's branch (§4.4). -/
structure RelRec where
  version : String
  sdkDate : Nat
  branchPrs : List PRrec
deriving DecidableEq, Repr

/-- Modelled from the spec: the inner loop of
`_build_pr_to_releases_mapping` for one release: walk the branch's
attributable PR set, assign every PR merged no later than the tag date
that is not already in the seen-set; returns the grown seen-set and the
list of PR numbers assigned to this release (§4.4). -/
def assignPrs (date : Nat) (assigned : List Nat) : List PRrec → List Nat × List Nat
  | [] => (assigned, [])
  | p :: ps =>
    if p.mergedAt ≤ date ∧ p.number ∉ assigned then
      let rest := assignPrs date (p.number :: assigned) ps
      (rest.1, p.number :: rest.2)
    else
      assignPrs date assigned ps

/-- Modelled from the spec: the outer loop of
`_build_pr_to_releases_mapping`: process the (already sorted) releases in
order, threading the seen-set, and emit each release together with the
PR numbers first appearing in it (§4.4). -/
def assignList (assigned : List Nat) : List RelRec → List (RelRec × List Nat)
  | [] => []
  | r :: rs =>
    let res := assignPrs r.sdkDate assigned r.branchPrs
    (r, res.2) :: assignList res.1 rs

/-- Modelled from the spec: releases are processed strictly in
chronological order of their matched SDK tag date (§4.4). -/
def relByDate (a b : RelRec) : Prop :=
  a.sdkDate ≤ b.sdkDate

instance : DecidableRel relByDate :=
  fun a b => inferInstanceAs (Decidable (a.sdkDate ≤ b.sdkDate))

instance : IsTotal RelRec relByDate :=
  ⟨fun a b => Nat.le_total a.sdkDate b.sdkDate⟩

instance : IsTrans RelRec relByDate :=
  ⟨fun _ _ _ h h' => Nat.le_trans h h'⟩

/-- Modelled from the spec: `sorted_releases = sorted(runtime_mappings,
key sdk_date)` of the assignment pseudocode (§4.4). -/
def sortReleases (rels : List RelRec) : List RelRec :=
  rels.insertionSort relByDate

/-- Modelled from the spec: `assign_all` / `_build_pr_to_releases_mapping`:
sort the releases by matched-SDK-tag date ascending and assign every PR to
the first release that includes it (§4.4). -/
def assignAll (rels : List RelRec) : List (RelRec × List Nat) :=
  assignList [] (sortReleases rels)

/-! ## BackportResolver index (modelled from the spec, §4.3) -/

/-- Modelled from the spec: the bidirectional backport index —
`backport_of` maps a backport PR to its original, `backports_of` is its
structural inverse mapping an original to the list of its backports
(§4.3). -/
structure BackportIndex where
  backport_of : List (Nat × Nat)
  backports_of : List (Nat × List Nat)
deriving DecidableEq, Repr

/-- Modelled from the spec: the index before any backport link has been
recorded. -/
def emptyIndex : BackportIndex :=
  ⟨[], []⟩

/-- Modelled from the spec: append a backport to an original's inverse
entry, creating the entry when the original is new (§4.3). -/
def addInv : List (Nat × List Nat) → Nat → Nat → List (Nat × List Nat)
  | [], o, b => [(o, [b])]
  | (k, l) :: rest, o, b =>
    if k = o then (k, l ++ [b]) :: rest else (k, l) :: addInv rest o b

/-- Modelled from the spec: record one backport link `b → o`, atomically
updating both directions; the write is skipped when it would make a PR a
key of both maps (a backport of a backport, §4.3) or overwrite an
existing link. -/
def registerBackport (idx : BackportIndex) (b o : Nat) : BackportIndex :=
  if (idx.backport_of.lookup b).isSome ∨ (idx.backports_of.lookup b).isSome ∨
      (idx.backport_of.lookup o).isSome then
    idx
  else
    { backport_of := (b, o) :: idx.backport_of,
      backports_of := addInv idx.backports_of o b }

/-- Modelled from the spec: the index produced by a run of the resolver,
i.e. a sequence of backport-link writes applied to the empty index. -/
def buildIndex (ws : List (Nat × Nat)) : BackportIndex :=
  ws.foldl (fun idx w => registerBackport idx w.1 w.2) emptyIndex

/-- Modelled from the spec: `backports_of[o]`, the list of recorded
backports of an original PR, empty when none is recorded. -/
def backportsOf (idx : BackportIndex) (o : Nat) : List Nat :=
  (idx.backports_of.lookup o).getD []

/-! ## BranchAnalyzer trunk set (modelled from the spec, §4.2) -/

/-- Modelled from the spec: a PR candidate for trunk inheritance: number,
merge timestamp and the branch it was merged into (§4.2). -/
structure MasterPR where
  number : Nat
  mergedAt : Nat
  target : String
deriving DecidableEq, Repr

/-- Modelled from the spec: `_get_master_prs_at_branch_point` — the PRs
merged to the trunk with merge timestamp no later than the branch's
divergence-point timestamp, boundary inclusive (§4.2, the
`merged:<=branch_date` query of the documentation). -/
def getMasterPrsAtBranchPoint (prs : List MasterPR) (branchDate : Nat) : List MasterPR :=
  prs.filter (fun p => p.target == "master" && p.mergedAt ≤ branchDate)

/-! ## Release pipeline (modelled from the spec, §4.4-§4.5, §6) -/

/-- Modelled from the spec: a downstream runtime release before matching:
version string, creation timestamp and pinned dependency snapshot (§3
Release). -/
structure RuntimeRelease where
  version : String
  date : Nat
  deps : List (String × String)
deriving DecidableEq, Repr

/-- Modelled from the spec: the per-release output record: the release is
always emitted, with its matched SDK tag recorded as absent when the
matcher found none (§6, §7 structural inconsistency handling). -/
structure ReleaseRecord where
  version : String
  date : Nat
  matchedTag : Option Tag
deriving DecidableEq, Repr

/-- Modelled from the spec: match every runtime release against the tag
database; a failed match is recorded as an absent tag, never a crash
(§4.5 failure policy). -/
def mapRuntimeReleases (tags : List Tag) (rels : List RuntimeRelease) :
    List ReleaseRecord :=
  rels.map (fun r => ⟨r.version, r.date, findBestSdkMatch tags r.deps r.date⟩)

/-- Modelled from the spec: only releases with a matched SDK tag take part
in PR assignment; the branch's attributable PR set is looked up through
the matched tag's branch (§4.4 contract). -/
def toRelRec (binfo : String → List PRrec) (rec : ReleaseRecord) : Option RelRec :=
  rec.matchedTag.map (fun t => ⟨rec.version, t.date, binfo t.branch⟩)

/-- Modelled from the spec: the structural computation over a fully
materialized snapshot: match all releases, then run the first-appearance
assignment over the matched ones (§2 control flow, §5). -/
def pipeline (tags : List Tag) (rels : List RuntimeRelease)
    (binfo : String → List PRrec) :
    List ReleaseRecord × List (RelRec × List Nat) :=
  let recs := mapRuntimeReleases tags rels
  (recs, assignAll (recs.filterMap (toRelRec binfo)))

/-! ## Website search (`docs/js/app.js`)

JS strings are embedded as `List Char`; `toLowerCase`, `includes`,
`startsWith` and the word-boundary regular expression are embedded over
that representation. -/

/-- JS `String.prototype.toLowerCase` over the embedded string. -/
def lower (s : List Char) : List Char :=
  s.map Char.toLower

/-- JS regex word character `\w`, i.e. `[A-Za-z0-9_]`. -/
def isWordChar (c : Char) : Bool :=
  c.isAlphanum || c == '_'

/-- Word-character test extended to the virtual non-word character beyond
either end of the string. -/
def isWordOpt : Option Char → Bool
  | none => false
  | some c => isWordChar c

/-- One position of the test of `new RegExp('\\b' + lowerQuery + '\\b', 'i')`
from `calculateRelevance` in `docs/js/app.js`: with `prev` the character
before the position and `s` the rest of the title, the query matches here
when `\b` holds on its left, the query is a case-insensitive prefix of
`s`, and `\b` holds on its right. -/
def wbHere (prev : Option Char) (s q : List Char) : Bool :=
  match q with
  | [] => isWordOpt prev != isWordOpt s.head?
  | c :: _ =>
    (isWordOpt prev != isWordChar c) &&
    (lower q).isPrefixOf (lower s) &&
    (isWordChar (q.getLastD c) != isWordOpt (s.drop q.length).head?)

/-- Scan of the title for a word-boundary match, tracking the previous
character. -/
def wbGo (q : List Char) (prev : Option Char) : List Char → Bool
  | [] => wbHere prev [] q
  | c :: rest => wbHere prev (c :: rest) q || wbGo q (some c) rest

/-- The word-boundary regular-expression test of `calculateRelevance`
(`docs/js/app.js`), for queries read as literal character sequences. -/
def wordBoundaryTest (title q : List Char) : Bool :=
  wbGo q none title

/-- The relevance score of `calculateRelevance` in `docs/js/app.js`:
exact (case-insensitive) title match 100, title-prefix match 90,
word-boundary match 80, any other containment 50. -/
def calculateRelevance (title q : List Char) : Nat :=
  let lowerTitle := lower title
  let lowerQuery := lower q
  if lowerTitle = lowerQuery then 100
  else if lowerQuery.isPrefixOf lowerTitle then 90
  else if wordBoundaryTest title q then 80
  else 50

/-- A release reference held in a `pr_to_releases` entry of
`sdk_pr_mappings.json`; the search logic treats it opaquely. -/
structure RelEntry where
  runtimeVersion : String
deriving DecidableEq, Repr

/-- The slice of a `pr_details` record used by the search functions of
`docs/js/app.js`. -/
structure PRDetails where
  title : List Char
deriving DecidableEq, Repr

/-- The slice of the loaded `sdkMappings` object consumed by the search
functions of `docs/js/app.js`. -/
structure SdkMappings where
  pr_to_releases : List (Nat × List RelEntry)
  pr_details : List (Nat × PRDetails)
  original_to_backports : List (Nat × List Nat)
deriving DecidableEq, Repr

/-- One result row pushed by `searchPRsByTitle` (`docs/js/app.js`). -/
structure SearchResult where
  pr_number : Nat
  pr_details : PRDetails
  runtime_releases : List RelEntry
  relevance : Nat
deriving DecidableEq, Repr

/-- The body of the `searchPRsByTitle` loop for one `pr_to_releases`
entry: look up the PR's details and keep the entry when the details exist,
the title is non-empty (JS truthiness) and the lowercased title contains
the lowercased query. -/
def searchRow (m : SdkMappings) (q : List Char) (e : Nat × List RelEntry) :
    Option SearchResult :=
  match m.pr_details.lookup e.1 with
  | none => none
  | some d =>
    if d.title ≠ [] ∧ (lower q) <:+: (lower d.title) then
      some ⟨e.1, d, e.2, calculateRelevance d.title q⟩
    else
      none

/-- The descending-relevance comparison of the final
`results.sort((a, b) => b.relevance - a.relevance)` in
`searchPRsByTitle`. -/
def relByRelevance (a b : SearchResult) : Prop :=
  b.relevance ≤ a.relevance

instance : DecidableRel relByRelevance :=
  fun a b => inferInstanceAs (Decidable (b.relevance ≤ a.relevance))

instance : IsTotal SearchResult relByRelevance :=
  ⟨fun a b => Nat.le_total b.relevance a.relevance⟩

instance : IsTrans SearchResult relByRelevance :=
  ⟨fun _ _ _ h h' => Nat.le_trans h' h⟩

/-- `searchPRsByTitle` from `docs/js/app.js`: collect every
`pr_to_releases` entry whose recorded title contains the query
case-insensitively, score it with `calculateRelevance`, and sort the
results by descending relevance. -/
def searchPRsByTitle (m : SdkMappings) (q : List Char) : List SearchResult :=
  (m.pr_to_releases.filterMap (searchRow m q)).insertionSort relByRelevance

/-- The display outcome of the number-search branch of `searchSDKPR`
(`docs/js/app.js`): show the PR itself, show the first backport found in
a runtime release, show the original together with its backport list, or
fall through to fetching the individual PR file. -/
inductive NumberSearchOutcome where
  | direct (n : Nat)
  | viaBackport (b : Nat)
  | originalWithBackports (n : Nat) (bs : List Nat)
  | fetchIndividual (n : Nat)
deriving DecidableEq, Repr

/-- The number-search branch of `searchSDKPR` in `docs/js/app.js`: a PR
present in `pr_to_releases` is displayed directly; otherwise, when the
number is an original with recorded backports, the first backport present
in `pr_to_releases` is displayed, and when none is, the original is
displayed with its backport list; otherwise the individual PR file is
fetched. -/
def numberSearch (m : SdkMappings) (n : Nat) : NumberSearchOutcome :=
  if (m.pr_to_releases.lookup n).isSome then
    .direct n
  else
    match m.original_to_backports.lookup n with
    | some backports =>
      match backports.find? (fun b => (m.pr_to_releases.lookup b).isSome) with
      | some b => .viaBackport b
      | none => .originalWithBackports n backports
    | none => .fetchIndividual n

/-! ## Lemmas about the assignment engine -/

theorem assignPrs_subset (d : Nat) (a : List Nat) (ps : List PRrec) :
    ∀ n ∈ a, n ∈ (assignPrs d a ps).1 := by
  induction ps generalizing a with
  | nil => intro n hn; simpa [assignPrs] using hn
  | cons p ps ih =>
    intro n hn
    by_cases h : p.mergedAt ≤ d ∧ p.number ∉ a
    · simpa [assignPrs, h] using ih (p.number :: a) n (List.mem_cons_of_mem _ hn)
    · simpa [assignPrs, h] using ih a n hn

theorem assignPrs_new (d : Nat) (a : List Nat) (ps : List PRrec) :
    ∀ n ∈ (assignPrs d a ps).2, n ∈ (assignPrs d a ps).1 ∧ n ∉ a := by
  induction ps generalizing a with
  | nil => intro n hn; simp [assignPrs] at hn
  | cons p ps ih =>
    intro n hn
    by_cases h : p.mergedAt ≤ d ∧ p.number ∉ a
    · simp only [assignPrs, if_pos h] at hn ⊢
      rcases List.mem_cons.mp hn with rfl | hn
      · exact ⟨assignPrs_subset d (p.number :: a) ps p.number (List.mem_cons_self _ _), h.2⟩
      · have := ih (p.number :: a) n hn
        exact ⟨this.1, fun hna => this.2 (List.mem_cons_of_mem _ hna)⟩
    · simp only [assignPrs, if_neg h] at hn ⊢
      exact ih a n hn

theorem assignPrs_nodup (d : Nat) (a : List Nat) (ps : List PRrec) :
    (assignPrs d a ps).2.Nodup := by
  induction ps generalizing a with
  | nil => simp [assignPrs]
  | cons p ps ih =>
    by_cases h : p.mergedAt ≤ d ∧ p.number ∉ a
    · simp only [assignPrs, if_pos h]
      refine List.nodup_cons.mpr ⟨fun hmem => ?_, ih (p.number :: a)⟩
      exact (assignPrs_new d _ ps _ hmem).2 (List.mem_cons_self _ _)
    · simp only [assignPrs, if_neg h]
      exact ih a

theorem assignPrs_fst_mem (d : Nat) (a : List Nat) (ps : List PRrec) :
    ∀ n ∈ (assignPrs d a ps).1, n ∈ a ∨ n ∈ (assignPrs d a ps).2 := by
  induction ps generalizing a with
  | nil => intro n hn; exact Or.inl hn
  | cons p ps ih =>
    intro n hn
    by_cases h : p.mergedAt ≤ d ∧ p.number ∉ a
    · simp only [assignPrs, if_pos h] at hn ⊢
      rcases ih (p.number :: a) n hn with hmem | hmem
      · rcases List.mem_cons.mp hmem with rfl | hmem
        · exact Or.inr (List.mem_cons_self _ _)
        · exact Or.inl hmem
      · exact Or.inr (List.mem_cons_of_mem _ hmem)
    · simp only [assignPrs, if_neg h] at hn ⊢
      exact ih a n hn

theorem assignPrs_cover (d : Nat) (a : List Nat) (ps : List PRrec) :
    ∀ p ∈ ps, p.mergedAt ≤ d → p.number ∈ (assignPrs d a ps).1 := by
  induction ps generalizing a with
  | nil => intro p hp; cases hp
  | cons q ps ih =>
    intro p hp hd
    by_cases h : q.mergedAt ≤ d ∧ q.number ∉ a
    · simp only [assignPrs, if_pos h]
      rcases List.mem_cons.mp hp with rfl | hp
      · exact assignPrs_subset d _ ps _ (List.mem_cons_self _ _)
      · exact ih (q.number :: a) p hp hd
    · simp only [assignPrs, if_neg h]
      rcases List.mem_cons.mp hp with rfl | hp
      · have hin : p.number ∈ a := by
          by_contra hna
          exact h ⟨hd, hna⟩
        exact assignPrs_subset d a ps _ hin
      · exact ih a p hp hd

theorem assignList_fst_mem (a : List Nat) (rs : List RelRec) :
    ∀ e ∈ assignList a rs, e.1 ∈ rs := by
  induction rs generalizing a with
  | nil => intro e he; simp [assignList] at he
  | cons r rs ih =>
    intro e he
    simp only [assignList] at he
    rcases List.mem_cons.mp he with rfl | he
    · exact List.mem_cons_self _ _
    · exact List.mem_cons_of_mem _ (ih _ e he)

theorem assignList_countP (a : List Nat) (rs : List RelRec) (pr : Nat) :
    (assignList a rs).countP (fun e => decide (pr ∈ e.2)) ≤ 1 ∧
      (pr ∈ a → (assignList a rs).countP (fun e => decide (pr ∈ e.2)) = 0) := by
  induction rs generalizing a with
  | nil => simp [assignList]
  | cons r rs ih =>
    have ihn := ih (assignPrs r.sdkDate a r.branchPrs).1
    by_cases hmem : pr ∈ (assignPrs r.sdkDate a r.branchPrs).2
    · have hfst : pr ∈ (assignPrs r.sdkDate a r.branchPrs).1 :=
        (assignPrs_new _ _ _ _ hmem).1
      have hna : pr ∉ a := (assignPrs_new _ _ _ _ hmem).2
      constructor
      · simp [assignList, List.countP_cons, hmem, ihn.2 hfst]
      · intro hpa; exact absurd hpa hna
    · constructor
      · simp only [assignList, List.countP_cons, hmem, decide_False, if_neg]
        simpa using ihn.1
      · intro hpa
        have hfst : pr ∈ (assignPrs r.sdkDate a r.branchPrs).1 :=
          assignPrs_subset _ _ _ _ hpa
        simp [assignList, List.countP_cons, hmem, ihn.2 hfst]

theorem assignList_cover (rs : List RelRec) :
    ∀ a : List Nat, rs.Pairwise relByDate → ∀ R ∈ rs, ∀ p ∈ R.branchPrs,
      p.mergedAt ≤ R.sdkDate → p.number ∉ a →
      ∃ e ∈ assignList a rs, p.number ∈ e.2 ∧ e.1.sdkDate ≤ R.sdkDate := by
  induction rs with
  | nil => intro a _ R hR; cases hR
  | cons r rs ih =>
    intro a hs R hR p hp hd ha
    have hs' := List.pairwise_cons.mp hs
    rcases List.mem_cons.mp hR with rfl | hR
    · have hfst : p.number ∈ (assignPrs R.sdkDate a R.branchPrs).1 :=
        assignPrs_cover _ _ _ p hp hd
      have hsnd : p.number ∈ (assignPrs R.sdkDate a R.branchPrs).2 := by
        rcases assignPrs_fst_mem _ _ _ _ hfst with hmem | hmem
        · exact absurd hmem ha
        · exact hmem
      exact ⟨(R, (assignPrs R.sdkDate a R.branchPrs).2),
        by simp [assignList], hsnd, le_refl _⟩
    · by_cases hfst : p.number ∈ (assignPrs r.sdkDate a r.branchPrs).1
      · have hsnd : p.number ∈ (assignPrs r.sdkDate a r.branchPrs).2 := by
          rcases assignPrs_fst_mem _ _ _ _ hfst with hmem | hmem
          · exact absurd hmem ha
          · exact hmem
        exact ⟨(r, (assignPrs r.sdkDate a r.branchPrs).2),
          by simp [assignList], hsnd, hs'.1 R hR⟩
      · rcases ih _ hs'.2 R hR p hp hd hfst with ⟨e, he, hpe, hle⟩
        exact ⟨e, by simp [assignList, he], hpe, hle⟩

theorem countP_two_le {α : Type} (l : List α) (p : α → Bool) (a b : α)
    (hab : a ≠ b) (ha : a ∈ l) (hb : b ∈ l) (hpa : p a = true) (hpb : p b = true) :
    2 ≤ l.countP p := by
  induction l with
  | nil => cases ha
  | cons x l ih =>
    rcases List.mem_cons.mp ha with rfl | ha'
    · have hb' : b ∈ l := by
        rcases List.mem_cons.mp hb with rfl | hb'
        · exact absurd rfl hab
        · exact hb'
      have h1 : 0 < l.countP p := List.countP_pos_iff.mpr ⟨b, hb', hpb⟩
      simp only [List.countP_cons, hpa, if_pos]
      omega
    · rcases List.mem_cons.mp hb with rfl | hb'
      · have h1 : 0 < l.countP p := List.countP_pos_iff.mpr ⟨a, ha', hpa⟩
        simp only [List.countP_cons, hpb, if_pos]
        omega
      · have := ih ha' hb'
        simp only [List.countP_cons]
        omega

theorem sortReleases_pairwise (rels : List RelRec) :
    (sortReleases rels).Pairwise relByDate :=
  List.sorted_insertionSort relByDate rels

theorem mem_sortReleases {rels : List RelRec} {R : RelRec} (hR : R ∈ rels) :
    R ∈ sortReleases rels :=
  ((List.perm_insertionSort relByDate rels).mem_iff).mpr hR

/-! ## Claims about the assignment engine -/

/-- C1: for every run of the assignment engine and every PR number, the
PR appears in at most one release's assignment list of the produced
mapping (the first-appearance invariant). -/
theorem assign_all_first_appearance (rels : List RelRec) (pr : Nat) :
    (assignAll rels).countP (fun e => decide (pr ∈ e.2)) ≤ 1 :=
  (assignList_countP [] (sortReleases rels) pr).1

/-- C2: a PR attributable to release R's branch and merged no later than
R's matched-SDK-tag date is assigned by `assign_all` to exactly one
release, whose tag date is no later than R's — never to a later
release. -/
theorem assign_all_chronological (rels : List RelRec) (R : RelRec) (p : PRrec)
    (hR : R ∈ rels) (hp : p ∈ R.branchPrs) (hd : p.mergedAt ≤ R.sdkDate) :
    ∃ e ∈ assignAll rels, p.number ∈ e.2 ∧ e.1.sdkDate ≤ R.sdkDate ∧
      ∀ e' ∈ assignAll rels, p.number ∈ e'.2 → e' = e := by
  rcases assignList_cover (sortReleases rels) [] (sortReleases_pairwise rels)
      R (mem_sortReleases hR) p hp hd (List.not_mem_nil _) with ⟨e, he, hpe, hle⟩
  refine ⟨e, he, hpe, hle, fun e' he' hpe' => ?_⟩
  by_contra hne
  have h2 : 2 ≤ (assignAll rels).countP (fun e => decide (p.number ∈ e.2)) := by
    exact countP_two_le _ _ e' e hne he' he (by simpa using hpe') (by simpa using hpe)
  have h1 := (assignList_countP [] (sortReleases rels) p.number).1
  simp only [assignAll] at h2
  omega

/-- Witness for C2 at a concrete two-release scenario. -/
theorem assign_all_chronological_witness :
    ∃ e ∈ assignAll [⟨"1.1", 20, [⟨250, 5, false, none⟩, ⟨300, 15, true, some 250⟩]⟩,
        ⟨"1.0", 10, [⟨250, 5, false, none⟩]⟩],
      (250 : Nat) ∈ e.2 ∧ e.1.sdkDate ≤ 20 ∧
      ∀ e' ∈ assignAll [⟨"1.1", 20, [⟨250, 5, false, none⟩, ⟨300, 15, true, some 250⟩]⟩,
          ⟨"1.0", 10, [⟨250, 5, false, none⟩]⟩],
        (250 : Nat) ∈ e'.2 → e' = e :=
  assign_all_chronological _
    ⟨"1.1", 20, [⟨250, 5, false, none⟩, ⟨300, 15, true, some 250⟩]⟩
    ⟨250, 5, false, none⟩ (by decide) (by decide) (by decide)

/-- C5: a PR flagged as a backport whose original PR was already assigned
to an earlier release is still assigned normally to its own
first-appearance release: the backport link never causes the backport to
be skipped. -/
theorem assign_all_backport_not_skipped (rels : List RelRec) (R : RelRec)
    (p : PRrec) (o : Nat) (eo : RelRec × List Nat)
    (hb : p.isBackport = true) (hor : p.originalPr = some o)
    (heo : eo ∈ assignAll rels) (hoo : o ∈ eo.2) (hearly : eo.1.sdkDate ≤ R.sdkDate)
    (hR : R ∈ rels) (hp : p ∈ R.branchPrs) (hd : p.mergedAt ≤ R.sdkDate) :
    ∃ e ∈ assignAll rels, p.number ∈ e.2 ∧ e.1.sdkDate ≤ R.sdkDate := by
  rcases assignList_cover (sortReleases rels) [] (sortReleases_pairwise rels)
      R (mem_sortReleases hR) p hp hd (List.not_mem_nil _) with ⟨e, he, hpe, hle⟩
  exact ⟨e, he, hpe, hle⟩

/-- Witness for C5: backport PR 300 of original 250 is assigned to the
second release even though 250 is already assigned to the first. -/
theorem assign_all_backport_not_skipped_witness :
    ∃ e ∈ assignAll [⟨"1.1", 20, [⟨250, 5, false, none⟩, ⟨300, 15, true, some 250⟩]⟩,
        ⟨"1.0", 10, [⟨250, 5, false, none⟩]⟩],
      (300 : Nat) ∈ e.2 ∧ e.1.sdkDate ≤ 20 :=
  assign_all_backport_not_skipped _
    ⟨"1.1", 20, [⟨250, 5, false, none⟩, ⟨300, 15, true, some 250⟩]⟩
    ⟨300, 15, true, some 250⟩ 250 (⟨"1.0", 10, [⟨250, 5, false, none⟩]⟩, [250])
    rfl rfl (by decide) (by decide) (by decide) (by decide) (by decide) (by decide)

/-! ## Lemmas about the version matcher -/

theorem predBit_le_one (rdate : Nat) (t : Tag) : predBit rdate t ≤ 1 := by
  unfold predBit
  split <;> omega

theorem predBit_eq_one (rdate : Nat) (t : Tag) (h : t.date ≤ rdate) :
    predBit rdate t = 1 := by
  simp [predBit, h]

theorem date_le_of_predBit (rdate : Nat) (t : Tag) (h : 1 ≤ predBit rdate t) :
    t.date ≤ rdate := by
  by_contra hd
  simp [predBit, hd] at h

theorem findBestSdkMatch_mem {tags : List Tag} {deps : List (String × String)}
    {rdate : Nat} {t : Tag} (ht : findBestSdkMatch tags deps rdate = some t) :
    t ∈ tags ∧ 0 < matchScore t deps := by
  have hmem : t ∈ (tags.filter (fun t => 0 < matchScore t deps)) :=
    List.argmax_mem ht
  have := List.mem_filter.mp hmem
  exact ⟨this.1, by simpa using this.2⟩

theorem findBestSdkMatch_le {tags : List Tag} {deps : List (String × String)}
    {rdate : Nat} {t c : Tag} (ht : findBestSdkMatch tags deps rdate = some t)
    (hc : c ∈ tags) (hs : 0 < matchScore c deps) :
    tagKey deps rdate c ≤ tagKey deps rdate t := by
  have hcf : c ∈ (tags.filter (fun t => 0 < matchScore t deps)) :=
    List.mem_filter.mpr ⟨hc, by simpa using hs⟩
  exact List.le_of_mem_argmax hcf ht

/-! ## Claims about the version matcher -/

/-- C3 counterexample: a release dated 5 whose only candidate tag is dated
10 is matched to that tag, so the returned tag's timestamp exceeds the
release's own timestamp (the last-resort fallback of §4.5 step 3 can
return a tag later than the release). -/
theorem find_best_sdk_match_later_counterexample :
    findBestSdkMatch [⟨"s1", "c", 10, "b", [("p", "1")]⟩] [("p", "1")] 5 =
        some ⟨"s1", "c", 10, "b", [("p", "1")]⟩ ∧
      ¬ (Tag.date ⟨"s1", "c", 10, "b", [("p", "1")]⟩ ≤ 5) :=
  ⟨by decide, by decide⟩

/-- C3 amended: whenever some maximal-score candidate is a temporal
predecessor of the release (tag date ≤ release date), the tag returned by
`_find_best_sdk_match` is itself a temporal predecessor; only when no
tied candidate precedes the release can the fallback return a later
tag. -/
theorem find_best_sdk_match_predecessor (tags : List Tag)
    (deps : List (String × String)) (rdate : Nat) (t c : Tag)
    (ht : findBestSdkMatch tags deps rdate = some t)
    (hc : c ∈ tags) (hs : 0 < matchScore c deps)
    (hmax : ∀ a ∈ tags, 0 < matchScore a deps → matchScore a deps ≤ matchScore c deps)
    (hcd : c.date ≤ rdate) :
    t.date ≤ rdate := by
  have htm := findBestSdkMatch_mem ht
  have hkey : tagKey deps rdate c ≤ tagKey deps rdate t :=
    findBestSdkMatch_le ht hc hs
  have hst : matchScore t deps ≤ matchScore c deps := hmax t htm.1 htm.2
  rcases (Prod.Lex.le_iff _ _).mp hkey with hlt | ⟨hseq, hrest⟩
  · exact absurd hlt (by omega)
  · rcases (Prod.Lex.le_iff _ _).mp hrest with hlt | ⟨hpeq, _⟩
    · have h1 : predBit rdate c = 1 := predBit_eq_one rdate c hcd
      have h2 : predBit rdate t ≤ 1 := predBit_le_one rdate t
      simp only [h1] at hlt
      omega
    · have h1 : predBit rdate c = 1 := predBit_eq_one rdate c hcd
      exact date_le_of_predBit rdate t (by omega)

/-- Witness for the amended C3: with a predecessor tag dated 3 and a later
tag dated 10, both matching, the matcher returns a tag dated no later than
the release date 5. -/
theorem find_best_sdk_match_predecessor_witness :
    (Tag.date ⟨"s0", "c", 3, "b", [("p", "1")]⟩ : Nat) ≤ 5 :=
  find_best_sdk_match_predecessor
    [⟨"s0", "c", 3, "b", [("p", "1")]⟩, ⟨"s1", "c", 10, "b", [("p", "1")]⟩]
    [("p", "1")] 5
    ⟨"s0", "c", 3, "b", [("p", "1")]⟩ ⟨"s0", "c", 3, "b", [("p", "1")]⟩
    (by decide) (by decide) (by decide) (by decide) (by decide)

/-! ## Determinism of the matcher and of the pipeline -/

theorem matcher_perm_invariant (tags₁ tags₂ : List Tag)
    (deps : List (String × String)) (rdate : Nat)
    (hp : tags₁.Perm tags₂) (hn : (tags₁.map Tag.name).Nodup) :
    findBestSdkMatch tags₁ deps rdate = findBestSdkMatch tags₂ deps rdate := by
  have hpf : (tags₁.filter (fun t => 0 < matchScore t deps)).Perm
      (tags₂.filter (fun t => 0 < matchScore t deps)) := hp.filter _
  rcases h1 : findBestSdkMatch tags₁ deps rdate with _ | m₁
  · have hnil : tags₁.filter (fun t => 0 < matchScore t deps) = [] :=
      List.argmax_eq_none.mp h1
    have hnil₂ : tags₂.filter (fun t => 0 < matchScore t deps) = [] := by
      have := hpf.length_eq
      rw [hnil] at this
      exact List.eq_nil_of_length_eq_zero this.symm
    simp [findBestSdkMatch, hnil₂]
  · rcases h2 : findBestSdkMatch tags₂ deps rdate with _ | m₂
    · have hnil₂ : tags₂.filter (fun t => 0 < matchScore t deps) = [] :=
        List.argmax_eq_none.mp h2
      have hm₁ : m₁ ∈ tags₁.filter (fun t => 0 < matchScore t deps) :=
        List.argmax_mem h1
      rw [hpf.mem_iff, hnil₂] at hm₁
      cases hm₁
    · have hm₁ : m₁ ∈ tags₁.filter (fun t => 0 < matchScore t deps) :=
        List.argmax_mem h1
      have hm₂ : m₂ ∈ tags₂.filter (fun t => 0 < matchScore t deps) :=
        List.argmax_mem h2
      have hm₁₂ : m₁ ∈ tags₂.filter (fun t => 0 < matchScore t deps) :=
        hpf.mem_iff.mp hm₁
      have hm₂₁ : m₂ ∈ tags₁.filter (fun t => 0 < matchScore t deps) :=
        hpf.mem_iff.mpr hm₂
      have hle₁ : tagKey deps rdate m₁ ≤ tagKey deps rdate m₂ :=
        List.le_of_mem_argmax hm₁₂ h2
      have hle₂ : tagKey deps rdate m₂ ≤ tagKey deps rdate m₁ :=
        List.le_of_mem_argmax hm₂₁ h1
      have hkey : tagKey deps rdate m₁ = tagKey deps rdate m₂ :=
        le_antisymm hle₁ hle₂
      have hname : m₁.name = m₂.name := by
        have h := toLex_inj.mp hkey
        have h' := congrArg Prod.snd h
        have h'' := toLex_inj.mp h'
        have h3 := congrArg Prod.snd h''
        have h4 := toLex_inj.mp h3
        exact congrArg Prod.snd h4
      have heq : m₁ = m₂ :=
        List.inj_on_of_nodup_map hn (List.mem_filter.mp hm₁).1
          (List.mem_filter.mp hm₂₁).1 hname
      rw [heq]

/-- C8: the structural computation is a deterministic function of the
materialized snapshot: presenting the immutable tag database in any order
(tag names are unique keys) yields the identical release records and the
identical PR-to-release assignment, so re-running the computation on an
unchanged snapshot reproduces the output exactly. -/
theorem pipeline_deterministic (tags₁ tags₂ : List Tag)
    (rels : List RuntimeRelease) (binfo : String → List PRrec)
    (hp : tags₁.Perm tags₂) (hn : (tags₁.map Tag.name).Nodup) :
    pipeline tags₁ rels binfo = pipeline tags₂ rels binfo := by
  have hmap : mapRuntimeReleases tags₁ rels = mapRuntimeReleases tags₂ rels := by
    unfold mapRuntimeReleases
    apply List.map_congr_left
    intro r _
    rw [matcher_perm_invariant tags₁ tags₂ r.deps r.date hp hn]
  simp [pipeline, hmap]

/-- Witness for C8 at a two-tag database presented in both orders. -/
theorem pipeline_deterministic_witness :
    pipeline [⟨"s0", "c", 3, "b", [("p", "1")]⟩, ⟨"s1", "c", 10, "b", [("p", "2")]⟩]
        [⟨"1.0", 5, [("p", "1")]⟩] (fun _ => [⟨100, 2, false, none⟩]) =
      pipeline [⟨"s1", "c", 10, "b", [("p", "2")]⟩, ⟨"s0", "c", 3, "b", [("p", "1")]⟩]
        [⟨"1.0", 5, [("p", "1")]⟩] (fun _ => [⟨100, 2, false, none⟩]) :=
  pipeline_deterministic _ _ _ _ (List.Perm.swap _ _ _) (by decide)

/-! ## Lemmas about the backport index -/

theorem lookup_eq_none_iff {β : Type} (l : List (Nat × β)) (k : Nat) :
    l.lookup k = none ↔ ∀ p ∈ l, p.1 ≠ k := by
  induction l with
  | nil => simp [List.lookup]
  | cons p l ih =>
    rcases p with ⟨k₀, v⟩
    by_cases h : k = k₀
    · subst h
      simp [List.lookup_cons]
    · simp only [List.lookup_cons, beq_false_of_ne h, List.mem_cons]
      constructor
      · intro hl q hq
        rcases hq with rfl | hq
        · exact fun e => h e.symm
        · exact ih.mp hl q hq
      · intro hl
        exact ih.mpr fun q hq => hl q (Or.inr hq)

theorem lookup_isSome_of_mem {β : Type} {l : List (Nat × β)} {k : Nat} {v : β}
    (h : (k, v) ∈ l) : (l.lookup k).isSome = true := by
  rcases hl : l.lookup k with _ | w
  · exact absurd rfl ((lookup_eq_none_iff l k).mp hl (k, v) h)
  · rfl

theorem lookup_addInv_self (m : List (Nat × List Nat)) (o b : Nat) :
    (addInv m o b).lookup o = some (((m.lookup o).getD []) ++ [b]) := by
  induction m with
  | nil => simp [addInv, List.lookup_cons, List.lookup]
  | cons p m ih =>
    rcases p with ⟨k, l⟩
    by_cases h : k = o
    · subst h
      simp [addInv, List.lookup_cons]
    · simp [addInv, h, List.lookup_cons, beq_false_of_ne (fun e : o = k => h e.symm), ih]

theorem lookup_addInv_other (m : List (Nat × List Nat)) (o b y : Nat)
    (h : y ≠ o) : (addInv m o b).lookup y = m.lookup y := by
  induction m with
  | nil => simp [addInv, List.lookup_cons, List.lookup, beq_false_of_ne h]
  | cons p m ih =>
    rcases p with ⟨k, l⟩
    by_cases hk : k = o
    · subst hk
      simp [addInv, List.lookup_cons, beq_false_of_ne h]
    · by_cases hky : y = k
      · subst hky
        simp [addInv, hk, List.lookup_cons]
      · simp [addInv, hk, List.lookup_cons, beq_false_of_ne hky, ih]

/-- The bidirectional-consistency invariant of the backport index: unique
forward keys, duplicate-free inverse lists, and the inverse being the
structural transpose of the forward map. -/
def IndexInv (idx : BackportIndex) : Prop :=
  (idx.backport_of.map Prod.fst).Nodup ∧
    (∀ o, (backportsOf idx o).Nodup) ∧
    ∀ b o, (b, o) ∈ idx.backport_of ↔ b ∈ backportsOf idx o

theorem emptyIndex_inv : IndexInv emptyIndex := by
  refine ⟨by simp [emptyIndex], fun o => ?_, fun b o => ?_⟩
  · simp [backportsOf, emptyIndex, List.lookup]
  · simp [backportsOf, emptyIndex, List.lookup]

theorem registerBackport_inv (idx : BackportIndex) (b o : Nat)
    (h : IndexInv idx) : IndexInv (registerBackport idx b o) := by
  by_cases hg : (idx.backport_of.lookup b).isSome ∨ (idx.backports_of.lookup b).isSome ∨
      (idx.backport_of.lookup o).isSome
  · unfold registerBackport
    rw [if_pos hg]
    exact h
  · push_neg at hg
    have hb1 : idx.backport_of.lookup b = none :=
      Option.not_isSome_iff_eq_none.mp (by simpa using hg.1)
    have hbkeys : b ∉ idx.backport_of.map Prod.fst := by
      intro hmem
      rcases List.mem_map.mp hmem with ⟨p, hp, hpk⟩
      exact (lookup_eq_none_iff _ _).mp hb1 p hp hpk
    have hbinv : ∀ o', b ∉ backportsOf idx o' := by
      intro o' hmem
      have := (h.2.2 b o').mpr hmem
      have hsome := lookup_isSome_of_mem this
      rw [hb1] at hsome
      cases hsome
    have hinv_self : backportsOf (registerBackport idx b o) o =
        backportsOf idx o ++ [b] := by
      simp [registerBackport, hg, backportsOf, lookup_addInv_self]
    have hinv_other : ∀ y, y ≠ o →
        backportsOf (registerBackport idx b o) y = backportsOf idx y := by
      intro y hy
      simp [registerBackport, hg, backportsOf, lookup_addInv_other _ _ _ _ hy]
    have hfwd : (registerBackport idx b o).backport_of = (b, o) :: idx.backport_of := by
      simp [registerBackport, hg]
    refine ⟨?_, ?_, ?_⟩
    · rw [hfwd, List.map_cons]
      exact List.nodup_cons.mpr ⟨hbkeys, h.1⟩
    · intro o'
      by_cases hy : o' = o
      · subst hy
        rw [hinv_self]
        exact List.Nodup.append (h.2.1 o') (List.nodup_singleton b)
          (by simpa [List.disjoint_singleton] using hbinv o')
      · rw [hinv_other o' hy]
        exact h.2.1 o'
    · intro x y
      rw [hfwd]
      by_cases hy : y = o
      · rw [hy, hinv_self]
        constructor
        · intro hc
          rcases List.mem_cons.mp hc with heq | hc
          · have hx : x = b := congrArg Prod.fst heq
            subst hx
            exact List.mem_append.mpr (Or.inr (List.mem_singleton.mpr rfl))
          · exact List.mem_append.mpr (Or.inl ((h.2.2 x o).mp hc))
        · intro hc
          rcases List.mem_append.mp hc with hc | hc
          · exact List.mem_cons.mpr (Or.inr ((h.2.2 x o).mpr hc))
          · have hx : x = b := List.mem_singleton.mp hc
            subst hx
            exact List.mem_cons.mpr (Or.inl rfl)
      · rw [hinv_other y hy]
        constructor
        · intro hc
          rcases List.mem_cons.mp hc with heq | hc
          · exact absurd (congrArg Prod.snd heq) hy
          · exact (h.2.2 x y).mp hc
        · intro hc
          exact List.mem_cons.mpr (Or.inr ((h.2.2 x y).mpr hc))

theorem buildIndex_inv (ws : List (Nat × Nat)) : IndexInv (buildIndex ws) := by
  have hgen : ∀ (l : List (Nat × Nat)) (idx : BackportIndex), IndexInv idx →
      IndexInv (l.foldl (fun idx w => registerBackport idx w.1 w.2) idx) := by
    intro l
    induction l with
    | nil => intro idx h; simpa using h
    | cons w l ih =>
      intro idx h
      exact ih _ (registerBackport_inv idx w.1 w.2 h)
  exact hgen ws emptyIndex emptyIndex_inv

/-! ## Claim about the backport index -/

/-- C4: after any sequence of writes, the inverse index is the structural
transpose of the forward map: a pair (b, o) is recorded in `backport_of`
exactly when b appears exactly once in `backports_of[o]`. -/
theorem backport_index_bidirectional (ws : List (Nat × Nat)) (b o : Nat) :
    (b, o) ∈ (buildIndex ws).backport_of ↔
      (backportsOf (buildIndex ws) o).count b = 1 := by
  have hinv := buildIndex_inv ws
  constructor
  · intro h
    exact List.count_eq_one_of_mem (hinv.2.1 o) ((hinv.2.2 b o).mp h)
  · intro h
    have hmem : b ∈ backportsOf (buildIndex ws) o :=
      List.count_pos_iff.mp (by omega)
    exact (hinv.2.2 b o).mpr hmem

/-! ## Claim about the trunk-inherited PR set -/

/-- C6: the trunk-inherited PR set computed at a branch point contains
exactly the PRs merged to the trunk with merge timestamp at most the
divergence-point timestamp: the boundary is inclusive, so a PR merged
exactly at the branch-cut timestamp is in the set and one merged strictly
after it is not. -/
theorem trunk_inherited_exact (prs : List MasterPR) (d : Nat) (p : MasterPR) :
    p ∈ getMasterPrsAtBranchPoint prs d ↔
      p ∈ prs ∧ p.target = "master" ∧ p.mergedAt ≤ d := by
  simp [getMasterPrsAtBranchPoint, List.mem_filter]

/-! ## Claim about unmatched releases -/

theorem findBestSdkMatch_eq_none {tags : List Tag} {deps : List (String × String)}
    {rdate : Nat} (h : ∀ t ∈ tags, matchScore t deps = 0) :
    findBestSdkMatch tags deps rdate = none := by
  unfold findBestSdkMatch
  have : tags.filter (fun t => 0 < matchScore t deps) = [] := by
    rw [List.filter_eq_nil_iff]
    intro t ht
    simp [h t ht]
  rw [this]
  exact List.argmax_nil _

/-- C7: a release whose dependency snapshot shares no tracked version with
any known tag gets the "no match" result; the release is still emitted in
the output records with its matched tag recorded as absent, and it
contributes zero PR assignments — the run is not aborted. -/
theorem unmatched_release_recorded (tags : List Tag) (rels : List RuntimeRelease)
    (binfo : String → List PRrec) (r : RuntimeRelease) (hr : r ∈ rels)
    (hnm : ∀ t ∈ tags, matchScore t r.deps = 0)
    (hu : ∀ r' ∈ rels, r'.version = r.version → r' = r) :
    (∃ rec ∈ (pipeline tags rels binfo).1,
        rec.version = r.version ∧ rec.matchedTag = none) ∧
      ∀ e ∈ (pipeline tags rels binfo).2, e.1.version ≠ r.version := by
  have hnone : findBestSdkMatch tags r.deps r.date = none :=
    findBestSdkMatch_eq_none hnm
  constructor
  · refine ⟨⟨r.version, r.date, none⟩, ?_, rfl, rfl⟩
    simp only [pipeline, mapRuntimeReleases]
    exact List.mem_map.mpr ⟨r, hr, by rw [hnone]⟩
  · intro e he heq
    simp only [pipeline] at he
    have he1 : e.1 ∈ (mapRuntimeReleases tags rels).filterMap (toRelRec binfo) := by
      have hmem := assignList_fst_mem _ _ e he
      exact ((List.perm_insertionSort relByDate _).mem_iff).mp hmem
    rcases List.mem_filterMap.mp he1 with ⟨rec, hrec, hsome⟩
    rcases List.mem_map.mp hrec with ⟨r', hr', hmk⟩
    rcases Option.map_eq_some'.mp hsome with ⟨t, hmt, hrel⟩
    have hver : r'.version = r.version := by
      have : e.1.version = rec.version := by rw [← hrel]
      rw [heq] at this
      rw [← hmk] at this
      exact this.symm
    have hr'r : r' = r := hu r' hr' hver
    rw [hr'r] at hmk
    rw [← hmk] at hmt
    simp only [hnone] at hmt
    cases hmt

/-- Witness for C7: a one-tag database sharing nothing with the release's
snapshot still emits the release, with no assignments at all for it. -/
theorem unmatched_release_recorded_witness :
    (∃ rec ∈ (pipeline [⟨"s0", "c", 3, "b", [("p", "1")]⟩] [⟨"1.0", 5, [("q", "9")]⟩]
        (fun _ => [⟨100, 2, false, none⟩])).1,
        rec.version = "1.0" ∧ rec.matchedTag = none) ∧
      ∀ e ∈ (pipeline [⟨"s0", "c", 3, "b", [("p", "1")]⟩] [⟨"1.0", 5, [("q", "9")]⟩]
          (fun _ => [⟨100, 2, false, none⟩])).2,
        e.1.version ≠ "1.0" :=
  unmatched_release_recorded _ _ _ ⟨"1.0", 5, [("q", "9")]⟩
    (by decide) (by decide) (by decide)

/-! ## Lemmas about the website title search -/

theorem searchRow_eq_some (m : SdkMappings) (q : List Char)
    (e : Nat × List RelEntry) (r : SearchResult) :
    searchRow m q e = some r ↔
      ∃ d, m.pr_details.lookup e.1 = some d ∧ d.title ≠ [] ∧
        (lower q) <:+: (lower d.title) ∧
        r = ⟨e.1, d, e.2, calculateRelevance d.title q⟩ := by
  rcases hl : m.pr_details.lookup e.1 with _ | d
  · simp [searchRow, hl]
  · simp only [searchRow, hl, Option.some.injEq]
    by_cases hc : d.title ≠ [] ∧ (lower q) <:+: (lower d.title)
    · rw [if_pos hc]
      constructor
      · intro hr
        injection hr with hr'
        exact ⟨d, rfl, hc.1, hc.2, hr'.symm⟩
      · rintro ⟨d', hd', _, _, hr⟩
        subst hd'
        rw [hr]
    · rw [if_neg hc]
      constructor
      · intro hr
        cases hr
      · rintro ⟨d', hd', ht, hin, _⟩
        subst hd'
        exact absurd ⟨ht, hin⟩ hc

theorem searchPRsByTitle_mem (m : SdkMappings) (q : List Char) (r : SearchResult) :
    r ∈ searchPRsByTitle m q ↔
      ∃ e ∈ m.pr_to_releases, searchRow m q e = some r := by
  unfold searchPRsByTitle
  rw [(List.perm_insertionSort relByRelevance _).mem_iff]
  exact List.mem_filterMap

/-! ## Claim about the website title search -/

/-- C9: `searchPRsByTitle` returns exactly the PRs of `pr_to_releases`
whose recorded title contains the query case-insensitively, sorted in
non-increasing relevance order, where the relevance score is 100 for an
exact title match, 90 for a title-prefix match, 80 for a word-boundary
match, and 50 for any other containment. -/
theorem search_prs_by_title_exact (m : SdkMappings) (q : List Char) :
    (searchPRsByTitle m q).Sorted relByRelevance ∧
      (∀ n : Nat,
        (∃ r ∈ searchPRsByTitle m q, r.pr_number = n) ↔
          ∃ e ∈ m.pr_to_releases, e.1 = n ∧
            ∃ d, m.pr_details.lookup n = some d ∧ d.title ≠ [] ∧
              (lower q) <:+: (lower d.title)) ∧
      (∀ r ∈ searchPRsByTitle m q,
        m.pr_details.lookup r.pr_number = some r.pr_details ∧
          r.relevance = calculateRelevance r.pr_details.title q) ∧
      ∀ title : List Char,
        (lower title = lower q → calculateRelevance title q = 100) ∧
        (lower title ≠ lower q → (lower q).isPrefixOf (lower title) = true →
          calculateRelevance title q = 90) ∧
        (lower title ≠ lower q → (lower q).isPrefixOf (lower title) = false →
          wordBoundaryTest title q = true → calculateRelevance title q = 80) ∧
        (lower title ≠ lower q → (lower q).isPrefixOf (lower title) = false →
          wordBoundaryTest title q = false → calculateRelevance title q = 50) := by
  refine ⟨List.sorted_insertionSort relByRelevance _, fun n => ?_, fun r hr => ?_,
    fun title => ?_⟩
  · constructor
    · rintro ⟨r, hr, rfl⟩
      rcases (searchPRsByTitle_mem m q r).mp hr with ⟨e, he, hrow⟩
      rcases (searchRow_eq_some m q e r).mp hrow with ⟨d, hd, ht, hin, hrr⟩
      have hnum : r.pr_number = e.1 := by rw [hrr]
      exact ⟨e, he, hnum.symm, d, hnum ▸ hd, ht, hin⟩
    · rintro ⟨e, he, hen, d, hd, ht, hin⟩
      refine ⟨⟨n, d, e.2, calculateRelevance d.title q⟩, ?_, rfl⟩
      rw [searchPRsByTitle_mem m q]
      refine ⟨e, he, ?_⟩
      rw [searchRow_eq_some m q e]
      exact ⟨d, hen ▸ hd, ht, hin, by rw [hen]⟩
  · rcases (searchPRsByTitle_mem m q r).mp hr with ⟨e, he, hrow⟩
    rcases (searchRow_eq_some m q e r).mp hrow with ⟨d, hd, _, _, hrr⟩
    constructor
    · rw [hrr]
      exact hd
    · rw [hrr]
  · refine ⟨fun h => ?_, fun h hp => ?_, fun h hp hw => ?_, fun h hp hw => ?_⟩
    · simp [calculateRelevance, h]
    · simp [calculateRelevance, h, hp]
    · simp [calculateRelevance, h, hp, hw]
    · simp [calculateRelevance, h, hp, hw]

/-! ## Claim about the number search and backports -/

theorem find?_pre_none {α : Type} (p : α → Bool) (pre : List α) (b : α)
    (post : List α) (hpre : ∀ x ∈ pre, p x = false) (hb : p b = true) :
    (pre ++ b :: post).find? p = some b := by
  induction pre with
  | nil => simp [List.find?_cons_of_pos _ hb]
  | cons x pre ih =>
    rw [List.cons_append, List.find?_cons_of_neg _ (by simp [hpre x (List.mem_cons_self _ _)])]
    exact ih fun y hy => hpre y (List.mem_cons_of_mem _ hy)

/-- C10: for an all-digit query n absent from `pr_to_releases` but present
as an original in `original_to_backports`, the search displays the first
backport, in stored list order, that has an entry in `pr_to_releases`;
when no backport of n has any release entry, the original PR n is
displayed together with its backport list instead. -/
theorem number_search_backports (m : SdkMappings) (n : Nat) (bs : List Nat)
    (h1 : m.pr_to_releases.lookup n = none)
    (h2 : m.original_to_backports.lookup n = some bs) :
    ((∀ b ∈ bs, m.pr_to_releases.lookup b = none) →
        numberSearch m n = NumberSearchOutcome.originalWithBackports n bs) ∧
      ∀ pre b post, bs = pre ++ b :: post →
        (∀ x ∈ pre, m.pr_to_releases.lookup x = none) →
        (m.pr_to_releases.lookup b).isSome = true →
        numberSearch m n = NumberSearchOutcome.viaBackport b := by
  constructor
  · intro hall
    have hfind : bs.find? (fun b => (m.pr_to_releases.lookup b).isSome) = none :=
      List.find?_eq_none.mpr fun x hx => by simp [hall x hx]
    simp [numberSearch, h1, h2, hfind]
  · intro pre b post hsplit hpre hb
    have hfind : bs.find? (fun b => (m.pr_to_releases.lookup b).isSome) = some b := by
      rw [hsplit]
      exact find?_pre_none _ pre b post (fun x hx => by simp [hpre x hx]) hb
    simp [numberSearch, h1, h2, hfind]

/-- Witness for C10: with PR 3 an original whose backports are 4 and 5 and
only PR 5 present in `pr_to_releases`, searching 3 displays backport 5. -/
theorem number_search_backports_witness :
    numberSearch ⟨[(5, [⟨"1.0"⟩])], [], [(3, [4, 5])]⟩ 3 =
      NumberSearchOutcome.viaBackport 5 :=
  (number_search_backports ⟨[(5, [⟨"1.0"⟩])], [], [(3, [4, 5])]⟩ 3 [4, 5]
      (by decide) (by decide)).2
    [4] 5 [] rfl (by decide) (by decide)

end ReadableRuntime
